import Mathlib

/-!
Verification of the octopost time-series assembly engine.

This file gives a shallow embedding, in Lean 4, of the core algorithms of the
octopost repository (src/octopost/parsing.py and src/octopost/reader.py):

* discovery of time-window directories (`parsing.list_time_dirs`),
* the backward fold that merges per-window tables
  (`OpenFOAMpostProcessing.combine_oftime_files`, reader.py lines 85-94),
* the caller time-range filter (`OpenFOAMpostProcessing.time_range`),
* the canonical column sort (`OpenFOAMpostProcessing.sort_fields`),
* the mtime-based caching logic (`combine_oftime_files` / `load_data`),
* the per-quantity customization steps of `OpenFOAMforces`,
  `OpenFOAMresiduals` and `OpenFOAMwaveBuoy`.

Modelling conventions: numeric cell values are rationals (the Python code works
on IEEE floats; the properties verified here are structural, about which rows
and columns are produced, so exact arithmetic is the appropriate idealization);
a pandas DataFrame is a list of column names together with positional rows;
Python exceptions (KeyError / ValueError) are modelled with `Except` or
`Option`; the filesystem directory listing is modelled as the list of entry
names that `Path.glob` enumerates.
-/

namespace Octopost

/-! ## Generic list machinery -/

/-- Stable insertion of an element into a list ordered by a boolean comparison:
the new element goes in front of the first element `y` with `le x y`. -/

def insertKey {α : Type} (le : α → α → Bool) (x : α) : List α → List α
  | [] => [x]
  | y :: ys => if le x y then x :: y :: ys else y :: insertKey le x ys

/-- Stable sort by a boolean comparison, modelling Python's `sorted`. -/

def sortByKey {α : Type} (le : α → α → Bool) (l : List α) : List α :=
  l.foldr (insertKey le) []

/-- Kernel-computable `a < b` on the rationals. -/

def ratLtB (a b : Rat) : Bool :=
  Rat.blt a b

/-- Kernel-computable `a ≤ b` on the rationals. -/

def ratLeB (a b : Rat) : Bool :=
  !(Rat.blt b a)

/-! ## parsing.list_time_dirs

`list_time_dirs` (parsing.py lines 6-23) does
`sorted([x.name for x in Path(p).glob('[0-9]*')], key=float)`:
it keeps exactly the entries whose name starts with a decimal digit and sorts
them with Python's `float` as the key; `float` raises `ValueError` on a
non-numeric name, which aborts the whole call. -/

/-- Value of a list of decimal digit characters. -/

def digitsVal (ds : List Char) : Nat :=
  ds.foldl (fun a c => 10 * a + (c.toNat - 48)) 0

/-- Model of Python's `float()` on the literal forms relevant here:
an optional sign, a mantissa `D+ | D+ . D* | . D+`, and an optional exponent
`(e|E) sign? D+`, with nothing left over.  (The `inf`/`nan` words, embedded
underscores and surrounding whitespace accepted by CPython are outside the
directory-name grammar this repository reads and are not modelled.)  Returns
`none` where `float()` raises `ValueError`. -/

def pyFloat? (s : String) : Option Rat :=
  let cs := s.toList
  let sgnCs : Bool × List Char :=
    match cs with
    | '+' :: r => (false, r)
    | '-' :: r => (true, r)
    | r => (false, r)
  let ipRest := sgnCs.2.span Char.isDigit
  let fpRest : List Char × List Char :=
    match ipRest.2 with
    | '.' :: r => r.span Char.isDigit
    | r => ([], r)
  let rest : List Char :=
    match ipRest.2 with
    | '.' :: _ => fpRest.2
    | r => r
  if ipRest.1.isEmpty && fpRest.1.isEmpty then none
  else
    let n0 : Nat := digitsVal ipRest.1 * 10 ^ fpRest.1.length + digitsVal fpRest.1
    let d0 : Nat := 10 ^ fpRest.1.length
    let signed : Nat → Nat → Option Rat := fun n d =>
      some (mkRat (if sgnCs.1 then -(n : Int) else (n : Int)) d)
    match rest with
    | [] => signed n0 d0
    | e :: r =>
      if e = 'e' ∨ e = 'E' then
        let esgnR : Bool × List Char :=
          match r with
          | '+' :: r' => (false, r')
          | '-' :: r' => (true, r')
          | r' => (false, r')
        let edRest := esgnR.2.span Char.isDigit
        if edRest.1.isEmpty || !edRest.2.isEmpty then none
        else if esgnR.1 then signed n0 (d0 * 10 ^ digitsVal edRest.1)
        else signed (n0 * 10 ^ digitsVal edRest.1) d0
      else none

/-- Whether a directory name matches the glob pattern `[0-9]*`: its first
character is a decimal digit. -/

def matchesGlob (s : String) : Bool :=
  match s.toList with
  | [] => false
  | c :: _ => c.isDigit

/-- Numeric sort key used by `list_time_dirs`; only applied to names for which
`pyFloat?` succeeds. -/

def floatKey (s : String) : Rat :=
  (pyFloat? s).getD 0

/-- Comparison of directory names by their numeric value. -/

def nameLeB (a b : String) : Bool :=
  ratLeB (floatKey a) (floatKey b)

/-- Model of `parsing.list_time_dirs` over the list of directory-entry names.
Entries matching the glob `[0-9]*` are kept and sorted with `float` as key;
if any kept entry does not parse as a float, `sorted` propagates the
`ValueError` raised by the key function. -/

def list_time_dirs (entries : List String) : Except String (List String) :=
  let globbed := entries.filter matchesGlob
  if globbed.all (fun s => (pyFloat? s).isSome) then
    .ok (sortByKey nameLeB globbed)
  else
    .error "ValueError"

/-! ## The overlap merge of combine_oftime_files

Lines 85-94 of reader.py merge the per-window tables (each indexed by time)
by folding from the most recent window backward:

    d = tmp_data[-1]
    if len(tmp_data) > 1:
        for i in reversed(tmp_data[:-1]):
            if i.index.array[-1] > d.index.array[-1]:
                i = i[i.index < d.index.array[-1]]
            d = d.combine_first(i)

A table is modelled as a list of rows, each row a time key paired with its
cell values (the windows of one quantity share one column schema, so rows are
kept positional).  `pandas.DataFrame.combine_first` produces the sorted union
of the two indexes, the caller's values winning wherever its index has the
label (no NaN values arise in the claims under study).  `i.index.array[-1]`
on an empty index raises, modelled by `Option`. -/

/-- A time-indexed table: rows of (time value, cell values). -/

abbrev TTable := List (Rat × List Rat)

/-- The time index of a table. -/

def tkeys (t : TTable) : List Rat :=
  t.map Prod.fst

/-- Label lookup in the time index, first match (indexes are unique in the
inputs this code receives). -/

def lookupRow (t : TTable) (x : Rat) : Option (List Rat) :=
  (t.find? (fun r => r.1 == x)).map Prod.snd

/-- Insertion into a strictly sorted list of keys, keeping one copy of
duplicated keys. -/

def insertSortedKey (x : Rat) : List Rat → List Rat
  | [] => [x]
  | y :: ys =>
    if ratLtB x y then x :: y :: ys
    else if x == y then y :: ys
    else y :: insertSortedKey x ys

/-- Sorted deduplicated union of a list of keys, as computed for the result
index of `combine_first`. -/

def sortedUnion (l : List Rat) : List Rat :=
  l.foldr insertSortedKey []

/-- Model of `d.combine_first(i)`: the result is indexed by the sorted union
of both indexes, and at each label carries `d`'s row when `d`'s index has the
label, otherwise `i`'s row. -/

def combine_first (d i : TTable) : TTable :=
  (sortedUnion (tkeys d ++ tkeys i)).map
    (fun t => (t, ((lookupRow d t).orElse (fun _ => lookupRow i t)).getD []))

/-- The last entry of the time index (`index.array[-1]`); `none` models the
IndexError raised on an empty index. -/

def lastKey? (t : TTable) : Option Rat :=
  (tkeys t).getLast?

/-- Truncation `i[i.index < c]`. -/

def truncBelow (c : Rat) (t : TTable) : TTable :=
  t.filter (fun r => ratLtB r.1 c)

/-- One iteration of the merge loop: the earlier window `i` is truncated to
end strictly before the accumulator's last time whenever it extends past it,
then combined under the accumulator. -/

def merge_step (d i : TTable) : Option TTable :=
  match lastKey? i, lastKey? d with
  | some li, some ld =>
    some (combine_first d (if ratLtB ld li then truncBelow ld i else i))
  | _, _ => none

/-- The loop over the earlier windows, given in reversed order. -/

def merge_fold (d : TTable) : List TTable → Option TTable
  | [] => some d
  | i :: rest =>
    match merge_step d i with
    | some d2 => merge_fold d2 rest
    | none => none

/-- Model of the merge of reader.py lines 85-94 over the list of per-window
tables in ascending time-directory order (`tmp_data`).  `none` models the
exceptions the Python raises on an empty window list or an empty window
index. -/

def combine_oftime (tables : List TTable) : Option TTable :=
  match tables.getLast? with
  | some d => merge_fold d (tables.dropLast.reverse)
  | none => none

/-- Merge as the claims describe it (`truncate the earlier window to end
strictly before the accumulator's earliest time`): identical to `merge_step`
except that the truncation threshold is the accumulator's first index entry
rather than its last.  This definition follows the specification text and is
compared against the code model `combine_oftime`. -/

def claimed_merge_step (d i : TTable) : Option TTable :=
  match lastKey? i, (tkeys d).head? with
  | some li, some fd =>
    some (combine_first d (if ratLtB fd li then truncBelow fd i else i))
  | _, _ => none

/-- The claimed merge loop. -/

def claimed_merge_fold (d : TTable) : List TTable → Option TTable
  | [] => some d
  | i :: rest =>
    match claimed_merge_step d i with
    | some d2 => claimed_merge_fold d2 rest
    | none => none

/-- The claimed merge over the per-window tables. -/

def claimed_combine_oftime (tables : List TTable) : Option TTable :=
  match tables.getLast? with
  | some d => claimed_merge_fold d (tables.dropLast.reverse)
  | none => none

/-! ## DataFrame model and the reader operations on it

After `reset_index`, the merged data is an ordinary DataFrame whose first
column is `time`.  A DataFrame is modelled as its column labels plus
positional rows; cells are rationals.  All accesses in the code under study
are label-based (`df['fxp']`, `df.loc[:, cols]`, `reindex`), modelled by
looking a label up in `names` and reading the corresponding position. -/

/-- Decidable equality of `Except` results, used to evaluate the models on
concrete inputs. -/

instance {e : Type} {a : Type} [DecidableEq e] [DecidableEq a] :
    DecidableEq (Except e a) := fun x y =>
  match x, y with
  | .ok u, .ok v =>
    if h : u = v then isTrue (by rw [h])
    else isFalse (fun hc => by cases hc; exact h rfl)
  | .error u, .error v =>
    if h : u = v then isTrue (by rw [h])
    else isFalse (fun hc => by cases hc; exact h rfl)
  | .ok _, .error _ => isFalse (fun hc => by cases hc)
  | .error _, .ok _ => isFalse (fun hc => by cases hc)

/-- A DataFrame: column labels and positional rows. -/

structure DF where
  names : List String
  rows : List (List Rat)
deriving DecidableEq

/-- The empty DataFrame `pd.DataFrame()`. -/

def DF.empty : DF :=
  { names := [], rows := [] }

/-- Well-formedness: each row has one cell per column label. -/

abbrev DF.wf (df : DF) : Prop :=
  ∀ r ∈ df.rows, r.length = df.names.length

/-- The cell of one row under a column label: the entry of the first column
carrying that label, `none` when the label is absent (or the ragged row ends
before it). -/

def cell : List String → List Rat → String → Option Rat
  | [], _, _ => none
  | _ :: _, [], _ => none
  | n :: ns, v :: vs, c => if n == c then some v else cell ns vs c

/-- Column access `df[c]`: the column's cells, or `none` (a KeyError) when
the label is absent. -/

def getColVals (df : DF) (c : String) : Option (List Rat) :=
  if df.names.contains c then
    some (df.rows.map (fun r => (cell df.names r c).getD 0))
  else none

/-- Column assignment `df[c] = vals`: overwrites the column when the label
exists, otherwise appends it on the right. -/

def setCol (df : DF) (c : String) (vals : List Rat) : DF :=
  if df.names.contains c then
    { df with
      rows := List.zipWith
        (fun r x => (df.names.zip r).map (fun p => if p.1 == c then x else p.2))
        df.rows vals }
  else
    { names := df.names ++ [c],
      rows := List.zipWith (fun r x => r ++ [x]) df.rows vals }

/-- Column removal `df.drop(columns=cs)` (all labels present when called in
the code paths modelled here). -/

def dropCols (cs : List String) (df : DF) : DF :=
  { names := df.names.filter (fun n => !(cs.contains n)),
    rows := df.rows.map
      (fun r => ((df.names.zip r).filter (fun p => !(cs.contains p.1))).map Prod.snd) }

/-- Model of `OpenFOAMpostProcessing.time_range` (reader.py lines 197-203):

    if self.tmin is not None:
        self.data = self.data[self.data['time'] > self.tmin]
    if self.tmax is not None:
        self.data = self.data[self.data['time'] < self.tmax]

Each bound, when given, keeps the rows whose `time` cell strictly exceeds
(resp. is strictly below) the bound; accessing the `time` column of a
DataFrame without that label raises a KeyError. -/

def tr_lower (tmin : Option Rat) (df : DF) : Except String DF :=
  match tmin with
  | none => .ok df
  | some a =>
    if df.names.contains "time" then
      .ok { df with rows := df.rows.filter (fun r => ratLtB a ((cell df.names r "time").getD 0)) }
    else .error "KeyError"

/-- The `tmax` filter of `time_range`. -/

def tr_upper (tmax : Option Rat) (df : DF) : Except String DF :=
  match tmax with
  | none => .ok df
  | some b =>
    if df.names.contains "time" then
      .ok { df with rows := df.rows.filter (fun r => ratLtB ((cell df.names r "time").getD 0) b) }
    else .error "KeyError"

/-- Both filters in sequence, as the method applies them. -/

def time_range (tmin tmax : Option Rat) (df : DF) : Except String DF :=
  match tr_lower tmin df with
  | .error e => .error e
  | .ok df1 => tr_upper tmax df1

/-- Time-range filtering as the claims describe it: inclusive on both sides
(`tmin <= t` and `t <= tmax`).  This definition follows the specification
text and is compared against the code model `time_range`. -/

def claimed_time_range (tmin tmax : Option Rat) (df : DF) : Except String DF :=
  let lower : Except String DF :=
    match tmin with
    | none => .ok df
    | some a =>
      if df.names.contains "time" then
        .ok { df with rows := df.rows.filter (fun r => ratLeB a ((cell df.names r "time").getD 0)) }
      else .error "KeyError"
  match lower with
  | .error e => .error e
  | .ok df1 =>
    match tmax with
    | none => .ok df1
    | some b =>
      if df1.names.contains "time" then
        .ok { df1 with rows := df1.rows.filter (fun r => ratLeB ((cell df1.names r "time").getD 0) b) }
      else .error "KeyError"

/-- Rank lookup in a SORT_ORDER table. -/

def lookupRank (order : List (String × Int)) (c : String) : Option Int :=
  (order.find? (fun p => p.1 == c)).map Prod.snd

/-- Kernel-computable `a ≤ b` on integers. -/

def intLeB (a b : Int) : Bool :=
  decide (a ≤ b)

/-- Comparison of column labels by SORT_ORDER rank. -/

def rankLeB (order : List (String × Int)) (a b : String) : Bool :=
  intLeB ((lookupRank order a).getD 0) ((lookupRank order b).getD 0)

/-- Model of `OpenFOAMpostProcessing.sort_fields` (reader.py lines 97-103):

    try:
        self.data = self.data.reindex(sorted(self.data.columns,
            key=lambda val: self.SORT_ORDER[val]), axis=1)
    except KeyError as e:
        pass

`sorted` evaluates `SORT_ORDER[val]` for every column; one unlisted column
raises a KeyError, the `except` swallows it and the data is left untouched.
Otherwise the columns are reindexed in rank order (Python's sort is stable). -/

def sort_fields (order : List (String × Int)) (df : DF) : DF :=
  if df.names.all (fun c => (lookupRank order c).isSome) then
    let ns := sortByKey (rankLeB order) df.names
    { names := ns,
      rows := df.rows.map (fun r => ns.map (fun c => (cell df.names r c).getD 0)) }
  else df

/-- Column sorting as the claims describe it: the listed columns come first in
rank order, the unlisted columns keep their relative order after them.  This
definition follows the specification text and is compared against the code
model `sort_fields`. -/

def claimed_sort_fields (order : List (String × Int)) (df : DF) : DF :=
  let listed := df.names.filter (fun c => (lookupRank order c).isSome)
  let unlisted := df.names.filter (fun c => !(lookupRank order c).isSome)
  let ns := sortByKey (rankLeB order) listed ++ unlisted
  { names := ns,
    rows := df.rows.map (fun r => ns.map (fun c => (cell df.names r c).getD 0)) }

/-! ## Per-quantity customization steps -/

/-- Derivation step of `OpenFOAMforces.customize` (reader.py lines 235-238):

    try:
        self.data['fx'] = self.data['fxp'] + self.data['fxv']
    except KeyError:
        pass

The right-hand side is evaluated first; a missing `fxp` or `fxv` raises a
KeyError before anything is assigned, and the `except` leaves the table
unchanged.  pandas adds the two columns row by row (the two series share the
table's row index). -/

def forces_fx (df : DF) : DF :=
  match getColVals df "fxp", getColVals df "fxv" with
  | some a, some b => setCol df "fx" (List.zipWith (fun x y => x + y) a b)
  | _, _ => df

/-- Derivation step of `OpenFOAMresiduals.customize` (reader.py lines
324-328):

    try:
        self.data['U'] = (np.abs(self.data['Ux'].pow(2) + self.data['Uy'].pow(2)
            + self.data['Uz'].pow(2)))/3.
        self.data.drop(columns=['Ux','Uy','Uz'],inplace=True)
    except KeyError:
        pass

With all three components present, `U` is set to the absolute value of the
sum of squares over three and the three component columns are dropped; a
missing component raises a KeyError before the assignment, leaving the table
unchanged. -/

def residuals_U (df : DF) : DF :=
  match getColVals df "Ux", getColVals df "Uy", getColVals df "Uz" with
  | some x, some y, some z =>
    let sq := List.zipWith (fun a b => a + b)
      (List.zipWith (fun a b => a + b) (x.map (fun a => a ^ 2)) (y.map (fun b => b ^ 2)))
      (z.map (fun c => c ^ 2))
    dropCols ["Ux", "Uy", "Uz"] (setCol df "U" (sq.map (fun v => |v| / 3)))
  | _, _, _ => df

/-- Model of `df.dropna(how='all', axis=1)` on the NaN-free tables under
study: a column survives iff it has at least one (non-NaN) value, so with no
rows every column is dropped and otherwise the table is unchanged. -/

def dropna_all (df : DF) : DF :=
  if df.rows.isEmpty then { names := [], rows := df.rows } else df

/-- Model of `OpenFOAMwaveBuoy.customize` (reader.py lines 251-264):

    self.data.dropna(how='all',axis=1,inplace=True)
    cols = ['time'] + list(self.data)[2::2]
    self.data = self.data.loc[:,cols]
    mapDict = {key:f'buoy{i}' for i,key in enumerate(list(self.data)[1:]) }
    self.data.rename(columns=mapDict,inplace=True)
    self.time_range()

`.loc` with any requested label absent from the columns raises a KeyError. -/

def everySecond : List String → List String
  | [] => []
  | [a] => [a]
  | a :: _ :: rest => a :: everySecond rest

/-- Renaming of the selected waveBuoy columns: the first label is kept, the
rest become buoy0, buoy1, ... -/

def buoyNames : List String → List String
  | [] => []
  | h :: rest => h :: (List.range rest.length).map (fun i => "buoy" ++ toString i)

/-- The waveBuoy customization; `tmin`/`tmax` are the reader's time bounds. -/

def waveBuoy_customize (tmin tmax : Option Rat) (df : DF) : Except String DF :=
  let df1 := dropna_all df
  let cols := "time" :: everySecond (df1.names.drop 2)
  if cols.all (fun c => df1.names.contains c) then
    let sel : DF :=
      { names := cols,
        rows := df1.rows.map (fun r => cols.map (fun c => (cell df1.names r c).getD 0)) }
    time_range tmin tmax { sel with names := buoyNames sel.names }
  else .error "KeyError"

/-! ## The caching layer of combine_oftime_files / load_data

reader.py lines 52-94 and 179-184:

    current_mtime = np.amax([Path(td,file_name).stat().st_mtime for td in time_dirs])
    if current_mtime == self.mtime:
        self.up_to_date = True
    else:
        self.up_to_date = False
        self.mtime = current_mtime
        ... read and merge ...
        self.data = d

    def load_data(self):
        self.combine_oftime_files(...)
        if not self.up_to_date:
            self.customize()

The reader state is (mtime, up_to_date, data); each discovered time window
contributes its file's modification time and its parsed table.  The merge and
the customization step are arbitrary parameters so that the cache-hit theorem
shows the result does not depend on them. -/

/-- One discovered time window: the data file's modification time and its
parsed table. -/

structure Window where
  mtime : Rat
  table : DF
deriving DecidableEq

/-- Reader state across load_data calls. -/

structure PPState where
  mtime : Rat
  upToDate : Bool
  data : DF
deriving DecidableEq

/-- Kernel-computable maximum of two rationals. -/

def ratMax (a b : Rat) : Rat :=
  if ratLeB a b then b else a

/-- Maximum file-modification time over the discovered windows
(`np.amax`), `none` for an empty window list (the code returns before
computing it in that case). -/

def maxMtime : List Window → Option Rat
  | [] => none
  | w :: rest => some (rest.foldl (fun a w2 => ratMax a w2.mtime) w.mtime)

/-- Model of `combine_oftime_files`, with the actual reading/merging of the
window tables abstracted as `mergeF`. -/

def combine_oftime_filesS (mergeF : List DF → DF) (ws : List Window)
    (st : PPState) : PPState :=
  match ws with
  | [] => { st with data := DF.empty }
  | w :: rest =>
    if (rest.foldl (fun a w2 => ratMax a w2.mtime) w.mtime) == st.mtime then
      { st with upToDate := true }
    else
      { mtime := rest.foldl (fun a w2 => ratMax a w2.mtime) w.mtime,
        upToDate := false,
        data := mergeF ((w :: rest).map Window.table) }

/-- The customize call guarded by the staleness flag. -/

def postCustomize (customizeF : DF → DF) (st1 : PPState) : PPState :=
  if st1.upToDate then st1 else { st1 with data := customizeF st1.data }

/-- Model of `load_data`: combine, then customize unless up to date. -/

def load_dataS (mergeF : List DF → DF) (customizeF : DF → DF)
    (ws : List Window) (st : PPState) : PPState :=
  postCustomize customizeF (combine_oftime_filesS mergeF ws st)

/-- Non-decreasing time index, as a boolean (rows as written by the solver
are in non-decreasing time order). -/

def nondecB : List Rat → Bool
  | [] => true
  | [_] => true
  | a :: b :: rest => ratLeB a b && nondecB (b :: rest)

/-- Unique time values, as a boolean. -/

def nodupB : List Rat → Bool
  | [] => true
  | a :: rest => rest.all (fun b => !(a == b)) && nodupB rest

/-- The time index of the merged series (empty when the merge raises). -/

def mergedKeys (tables : List TTable) : List Rat :=
  tkeys ((combine_oftime tables).getD [])

/-- The time cell of one row. -/

def timeCell (df : DF) (r : List Rat) : Rat :=
  (cell df.names r "time").getD 0

theorem insertKey_perm {α : Type} (le : α → α → Bool) (x : α)
    (l : List α) : List.Perm (insertKey le x l) (x :: l) := by
  induction l with
  | nil => simp [insertKey]
  | cons y ys ih =>
    by_cases h : le x y = true
    · simp [insertKey, h]
    · simp only [insertKey, h, if_false, Bool.false_eq_true]
      exact List.Perm.trans (ih.cons y) (List.Perm.swap x y ys)

theorem sortByKey_perm {α : Type} (le : α → α → Bool)
    (l : List α) : List.Perm (sortByKey le l) l := by
  induction l with
  | nil => simp [sortByKey]
  | cons y ys ih =>
    exact List.Perm.trans (insertKey_perm le y _) (ih.cons y)

theorem insertKey_sorted {α : Type} (le : α → α → Bool)
    (htot : ∀ a b, le a b = false → le b a = true)
    (htrans : ∀ a b c, le a b = true → le b c = true → le a c = true)
    (x : α) (l : List α) (h : l.Pairwise (fun a b => le a b = true)) :
    (insertKey le x l).Pairwise (fun a b => le a b = true) := by
  induction l with
  | nil => simp [insertKey]
  | cons y ys ih =>
    rcases List.pairwise_cons.mp h with ⟨hy, hys⟩
    by_cases hxy : le x y = true
    · simp only [insertKey, hxy, if_true]
      refine List.pairwise_cons.mpr ⟨?_, h⟩
      intro b hb
      rcases List.mem_cons.mp hb with rfl | hb
      · exact hxy
      · exact htrans x y b hxy (hy b hb)
    · simp only [insertKey, hxy, if_false, Bool.false_eq_true]
      refine List.pairwise_cons.mpr ⟨?_, ih hys⟩
      intro b hb
      have hb' := (insertKey_perm le x ys).mem_iff.mp hb
      rcases List.mem_cons.mp hb' with rfl | hb'
      · exact htot _ y (Bool.eq_false_iff.mpr hxy)
      · exact hy b hb'

theorem sortByKey_sorted {α : Type} (le : α → α → Bool)
    (htot : ∀ a b, le a b = false → le b a = true)
    (htrans : ∀ a b c, le a b = true → le b c = true → le a c = true)
    (l : List α) : (sortByKey le l).Pairwise (fun a b => le a b = true) := by
  induction l with
  | nil => simp [sortByKey]
  | cons y ys ih => exact insertKey_sorted le htot htrans y _ ih

theorem ratLtB_iff (a b : Rat) : ratLtB a b = true ↔ a < b :=
  Iff.rfl

theorem ratLeB_iff (a b : Rat) : ratLeB a b = true ↔ a ≤ b := by
  unfold ratLeB
  rw [Bool.not_eq_true']
  constructor
  · intro h
    refine not_lt.mp (fun hlt => ?_)
    have := (ratLtB_iff b a).mpr hlt
    simp [ratLtB] at this
    simp [this] at h
  · intro h
    by_contra hc
    have : b < a := (ratLtB_iff b a).mp (by simpa [ratLtB] using eq_true_of_ne_false hc)
    exact absurd h (not_le.mpr this)

theorem ratLeB_total (a b : Rat) : ratLeB a b = false → ratLeB b a = true := by
  intro h
  rcases le_total a b with hab | hba
  · exact absurd ((ratLeB_iff a b).mpr hab) (by simp [h])
  · exact (ratLeB_iff b a).mpr hba

theorem ratLeB_trans (a b c : Rat) :
    ratLeB a b = true → ratLeB b c = true → ratLeB a c = true := by
  intro h1 h2
  exact (ratLeB_iff a c).mpr (le_trans ((ratLeB_iff a b).mp h1) ((ratLeB_iff b c).mp h2))

/-! ## Lemmas about the merge -/

theorem mem_insertSortedKey (x a : Rat) (l : List Rat) :
    a ∈ insertSortedKey x l ↔ a = x ∨ a ∈ l := by
  induction l with
  | nil => simp [insertSortedKey]
  | cons y ys ih =>
    by_cases h1 : ratLtB x y = true
    · simp [insertSortedKey, h1]
    · by_cases h2 : (x == y) = true
      · have hxy : x = y := by simpa using h2
        simp only [insertSortedKey, h1, if_false, h2, if_true, Bool.false_eq_true]
        subst hxy
        simp only [List.mem_cons]
        constructor
        · intro h; exact Or.inr h
        · rintro (rfl | h)
          · exact Or.inl rfl
          · exact h
      · simp only [insertSortedKey, h1, h2, if_false, Bool.false_eq_true, List.mem_cons, ih]
        tauto

theorem sorted_insertSortedKey (x : Rat) (l : List Rat)
    (h : l.Pairwise (fun a b => a < b)) :
    (insertSortedKey x l).Pairwise (fun a b => a < b) := by
  induction l with
  | nil => simp [insertSortedKey]
  | cons y ys ih =>
    rcases List.pairwise_cons.mp h with ⟨hy, hys⟩
    by_cases h1 : ratLtB x y = true
    · simp only [insertSortedKey, h1, if_true]
      refine List.pairwise_cons.mpr ⟨?_, h⟩
      intro b hb
      rcases List.mem_cons.mp hb with rfl | hb
      · exact (ratLtB_iff x b).mp h1
      · exact lt_trans ((ratLtB_iff x y).mp h1) (hy b hb)
    · by_cases h2 : (x == y) = true
      · simp only [insertSortedKey, h1, h2, if_false, if_true, Bool.false_eq_true]
        exact h
      · simp only [insertSortedKey, h1, h2, if_false, Bool.false_eq_true]
        refine List.pairwise_cons.mpr ⟨?_, ih hys⟩
        intro b hb
        rcases (mem_insertSortedKey x b ys).mp hb with rfl | hb
        · rcases lt_trichotomy b y with hlt | heq | hgt
          · exact absurd ((ratLtB_iff b y).mpr hlt) h1
          · exact absurd (by simpa using heq) h2
          · exact hgt
        · exact hy b hb

theorem mem_sortedUnion (a : Rat) (l : List Rat) :
    a ∈ sortedUnion l ↔ a ∈ l := by
  induction l with
  | nil => simp [sortedUnion]
  | cons y ys ih =>
    simp only [sortedUnion, List.foldr_cons, List.mem_cons]
    rw [mem_insertSortedKey]
    rw [show ys.foldr insertSortedKey [] = sortedUnion ys from rfl] at *
    rw [ih]

theorem sorted_sortedUnion (l : List Rat) :
    (sortedUnion l).Pairwise (fun a b => a < b) := by
  induction l with
  | nil => simp [sortedUnion]
  | cons y ys ih => exact sorted_insertSortedKey y _ ih

theorem lookup_graph (ks : List Rat) (f : Rat → List Rat) (x : Rat) :
    lookupRow (ks.map (fun k => (k, f k))) x =
      if x ∈ ks then some (f x) else none := by
  induction ks with
  | nil => simp [lookupRow]
  | cons k ks ih =>
    by_cases hk : k = x
    · subst hk
      simp [lookupRow, List.find?]
    · have hbeq : (k == x) = false := by simpa using hk
      simp only [List.map_cons, lookupRow, List.find?, hbeq, List.mem_cons]
      rw [show ((ks.map (fun k => (k, f k))).find? (fun r => r.1 == x)).map Prod.snd =
        lookupRow (ks.map (fun k => (k, f k))) x from rfl, ih]
      by_cases hx : x ∈ ks
      · simp [hx, Ne.symm hk]
      · simp [hx, Ne.symm hk]

theorem lookupRow_eq_none_iff (t : TTable) (x : Rat) :
    lookupRow t x = none ↔ x ∉ tkeys t := by
  constructor
  · intro h hmem
    rcases List.mem_map.mp hmem with ⟨r, hr, hrx⟩
    cases hf : List.find? (fun r2 => r2.1 == x) t with
    | some v =>
      unfold lookupRow at h
      rw [hf] at h
      simp at h
    | none =>
      have := List.find?_eq_none.mp hf r hr
      exact this (by simp [hrx])
  · intro h
    have hf : List.find? (fun r2 => r2.1 == x) t = none := by
      refine List.find?_eq_none.mpr (fun r hr => ?_)
      simp only [beq_iff_eq]
      intro hc
      exact h (List.mem_map.mpr ⟨r, hr, hc⟩)
    simp [lookupRow, hf]

theorem lookupRow_isSome_of_mem (t : TTable) (x : Rat) (h : x ∈ tkeys t) :
    (lookupRow t x).isSome = true := by
  cases hl : lookupRow t x
  · exact absurd h (by simpa using (lookupRow_eq_none_iff t x).mp hl)
  · rfl

theorem lookup_combine_first (d i : TTable) (x : Rat) :
    lookupRow (combine_first d i) x =
      if x ∈ tkeys d ∨ x ∈ tkeys i then
        (lookupRow d x).orElse (fun _ => lookupRow i x)
      else none := by
  unfold combine_first
  rw [lookup_graph]
  by_cases hx : x ∈ tkeys d ∨ x ∈ tkeys i
  · have hmem : x ∈ sortedUnion (tkeys d ++ tkeys i) :=
      (mem_sortedUnion x _).mpr (List.mem_append.mpr hx)
    rw [if_pos hmem, if_pos hx]
    rcases hx with hx | hx
    · cases hl : lookupRow d x with
      | none => exact absurd hx (by simpa using (lookupRow_eq_none_iff d x).mp hl)
      | some v => simp [Option.orElse, hl]
    · cases hl : lookupRow d x with
      | none =>
        cases hl2 : lookupRow i x with
        | none => exact absurd hx (by simpa using (lookupRow_eq_none_iff i x).mp hl2)
        | some v => simp [Option.orElse, hl, hl2]
      | some v => simp [Option.orElse, hl]
  · have hmem : x ∉ sortedUnion (tkeys d ++ tkeys i) := fun hc =>
      hx (List.mem_append.mp ((mem_sortedUnion x _).mp hc))
    rw [if_neg hmem, if_neg hx]

theorem lookup_truncBelow (c : Rat) (t : TTable) (x : Rat) :
    lookupRow (truncBelow c t) x =
      if x < c then lookupRow t x else none := by
  induction t with
  | nil => simp [lookupRow, truncBelow]
  | cons r rs ih =>
    by_cases hr : r.1 = x
    · subst hr
      by_cases hc : ratLtB r.1 c = true
      · have : r.1 < c := (ratLtB_iff _ _).mp hc
        simp [truncBelow, lookupRow, List.find?, hc, this]
      · have : ¬ r.1 < c := fun hlt => hc ((ratLtB_iff _ _).mpr hlt)
        simp only [truncBelow, List.filter_cons, hc, if_false, Bool.false_eq_true]
        rw [show (rs.filter (fun r => ratLtB r.1 c)) = truncBelow c rs from rfl, ih]
        simp [this, lookupRow, List.find?]
    · have hbeq : (r.1 == x) = false := by simpa using hr
      by_cases hc : ratLtB r.1 c = true
      · simp only [truncBelow, List.filter_cons, hc, if_true]
        simp only [lookupRow, List.find?, hbeq]
        rw [show ((rs.filter (fun r => ratLtB r.1 c)).find? (fun r => r.1 == x)).map Prod.snd
          = lookupRow (truncBelow c rs) x from rfl, ih]
        simp [lookupRow]
      · simp only [truncBelow, List.filter_cons, hc, if_false, Bool.false_eq_true]
        rw [show (rs.filter (fun r => ratLtB r.1 c)) = truncBelow c rs from rfl, ih]
        simp [lookupRow, List.find?, hbeq]

theorem tkeys_graph (ks : List Rat) (f : Rat → List Rat) :
    tkeys (ks.map (fun k => (k, f k))) = ks := by
  induction ks with
  | nil => rfl
  | cons k ks ih => simp only [List.map_cons, tkeys, List.map_map] at *; simpa using ih

theorem tkeys_combine_first (d i : TTable) :
    tkeys (combine_first d i) = sortedUnion (tkeys d ++ tkeys i) := by
  unfold combine_first
  exact tkeys_graph _ _

theorem combine_first_ne_nil (d i : TTable) (hd : d ≠ []) :
    combine_first d i ≠ [] := by
  intro hc
  have h1 : tkeys (combine_first d i) = [] := by rw [hc]; rfl
  rw [tkeys_combine_first] at h1
  cases d with
  | nil => exact hd rfl
  | cons r rs =>
    have : r.1 ∈ sortedUnion (tkeys (r :: rs) ++ tkeys i) := by
      rw [mem_sortedUnion]
      exact List.mem_append.mpr (Or.inl (by simp [tkeys]))
    rw [h1] at this
    exact absurd this (List.not_mem_nil r.1)

theorem pairwise_le_of_nondecB (l : List Rat) (h : nondecB l = true) :
    l.Pairwise (fun a b => a ≤ b) := by
  induction l with
  | nil => exact List.Pairwise.nil
  | cons a rest ih =>
    cases rest with
    | nil => simp
    | cons b rest2 =>
      have hsplit : ratLeB a b = true ∧ nondecB (b :: rest2) = true := by
        have hh := h
        unfold nondecB at hh
        rw [Bool.and_eq_true] at hh
        exact hh
      have h1 := hsplit.1
      have h2 := hsplit.2
      have hrest := ih h2
      refine List.pairwise_cons.mpr ⟨?_, hrest⟩
      intro c hc
      rcases List.mem_cons.mp hc with rfl | hc
      · exact (ratLeB_iff a c).mp h1
      · have hb : ∀ c2 ∈ rest2, b ≤ c2 := by
          intro c2 hc2
          exact (List.pairwise_cons.mp hrest).1 c2 hc2
        exact le_trans ((ratLeB_iff a b).mp h1) (hb c hc)

theorem pairwise_ne_of_nodupB (l : List Rat) (h : nodupB l = true) :
    l.Pairwise (fun a b => a ≠ b) := by
  induction l with
  | nil => exact List.Pairwise.nil
  | cons a rest ih =>
    unfold nodupB at h
    rw [Bool.and_eq_true] at h
    rcases h with ⟨h1, h2⟩
    refine List.pairwise_cons.mpr ⟨?_, ih h2⟩
    intro b hb
    have := List.all_eq_true.mp h1 b hb
    simpa using this

theorem pairwise_lt_of_nondec_nodup (l : List Rat)
    (h1 : nondecB l = true) (h2 : nodupB l = true) :
    l.Pairwise (fun a b => a < b) := by
  have hle := pairwise_le_of_nondecB l h1
  have hne := pairwise_ne_of_nodupB l h2
  exact (hle.and hne).imp (fun h => lt_of_le_of_ne h.1 h.2)

theorem exists_getLast? {α : Type} (l : List α) (h : l ≠ []) :
    ∃ a, l.getLast? = some a := by
  induction l with
  | nil => exact absurd rfl h
  | cons a t ih =>
    cases t with
    | nil => exact ⟨a, rfl⟩
    | cons b t2 =>
      rcases ih (by simp) with ⟨c, hc⟩
      exact ⟨c, by rw [List.getLast?_cons_cons]; exact hc⟩

theorem merge_fold_ok (rest : List TTable) (d : TTable)
    (hd : d ≠ []) (hsorted : (tkeys d).Pairwise (fun a b => a < b))
    (hrest : ∀ i ∈ rest, i ≠ []) :
    ∃ m, merge_fold d rest = some m ∧ m ≠ [] ∧
      (tkeys m).Pairwise (fun a b => a < b) := by
  induction rest generalizing d with
  | nil => exact ⟨d, rfl, hd, hsorted⟩
  | cons i rest2 ih =>
    have hi : i ≠ [] := hrest i (List.mem_cons_self i rest2)
    have hki : tkeys i ≠ [] := by
      intro hc
      cases i with
      | nil => exact hi rfl
      | cons r rs => exact absurd hc (by simp [tkeys])
    have hkd : tkeys d ≠ [] := by
      intro hc
      cases d with
      | nil => exact hd rfl
      | cons r rs => exact absurd hc (by simp [tkeys])
    rcases exists_getLast? (tkeys i) hki with ⟨li, hli0⟩
    have hli : lastKey? i = some li := hli0
    rcases exists_getLast? (tkeys d) hkd with ⟨ld, hld0⟩
    have hld : lastKey? d = some ld := hld0
    have hstep : merge_step d i =
        some (combine_first d (if ratLtB ld li then truncBelow ld i else i)) := by
      unfold merge_step
      rw [hli, hld]
    have hne2 : combine_first d (if ratLtB ld li then truncBelow ld i else i) ≠ [] :=
      combine_first_ne_nil _ _ hd
    have hsorted2 :
        (tkeys (combine_first d (if ratLtB ld li then truncBelow ld i else i))).Pairwise
          (fun a b => a < b) := by
      rw [tkeys_combine_first]
      exact sorted_sortedUnion _
    have := ih (combine_first d (if ratLtB ld li then truncBelow ld i else i))
      hne2 hsorted2 (fun j hj => hrest j (List.mem_cons_of_mem i hj))
    rcases this with ⟨m, hm, hmne, hmsorted⟩
    refine ⟨m, ?_, hmne, hmsorted⟩
    unfold merge_fold
    rw [hstep]
    exact hm

theorem mem_of_getLast?Eq {α : Type} {l : List α} {a : α}
    (h : l.getLast? = some a) : a ∈ l := by
  induction l with
  | nil => cases h
  | cons x t ih =>
    cases t with
    | nil =>
      have hx : x = a := Option.some.inj h
      exact hx ▸ List.mem_cons_self x []
    | cons y t2 =>
      rw [List.getLast?_cons_cons] at h
      exact List.mem_cons_of_mem x (ih h)

/-- C1 (counterexample): the merge does not truncate an earlier window at the
accumulator's earliest time.  With window A = times 0, 50, 85 and the later
window B = times 80, 150, the claimed fold (truncate A strictly before B's
earliest time 80) differs from the code's fold, and the merged series carries
A's values at time 85 even though 85 >= 80: A's values do not appear only at
times < 80. -/

theorem c1_counterexample :
    combine_oftime [[(0, [3]), (50, [5]), (85, [7])], [(80, [11]), (150, [13])]] ≠
      claimed_combine_oftime
        [[(0, [3]), (50, [5]), (85, [7])], [(80, [11]), (150, [13])]] ∧
    (combine_oftime
        [[(0, [3]), (50, [5]), (85, [7])], [(80, [11]), (150, [13])]]).bind
      (fun m => lookupRow m 85) = some [7] := by
  constructor
  · decide
  · decide

/-- C1 (amended): the merge of two windows folds the earlier window A under
the later window B, truncating A to end strictly before B's LAST time
exactly when A's last time exceeds it; on the remaining rows B's values win at
shared times while A's rows at times absent from B survive.  Pointwise: the
merged row at time t is B's row when B's index has t, otherwise A's row
unless A was truncated there (B's last time lb below A's last time la and
lb <= t). -/

theorem c1_merge_truncates_at_latest (A B : TTable) (la lb : Rat)
    (hA : lastKey? A = some la) (hB : lastKey? B = some lb) (t : Rat) :
    (combine_oftime [A, B]).bind (fun m => lookupRow m t) =
      match lookupRow B t with
      | some v => some v
      | none => if lb < la ∧ lb ≤ t then none else lookupRow A t := by
  have h1 : combine_oftime [A, B] = merge_fold B [A] := rfl
  have h2 : merge_fold B [A] =
      some (combine_first B (if ratLtB lb la then truncBelow lb A else A)) := by
    unfold merge_fold merge_step
    rw [hA, hB]
    rfl
  have h3 : (combine_oftime [A, B]).bind (fun m => lookupRow m t) =
      lookupRow (combine_first B (if ratLtB lb la then truncBelow lb A else A)) t := by
    rw [h1, h2]
    rfl
  rw [h3]
  rw [lookup_combine_first]
  cases hBt : lookupRow B t with
  | some v =>
    have hmem : t ∈ tkeys B := by
      by_contra hc
      rw [(lookupRow_eq_none_iff B t).mpr hc] at hBt
      cases hBt
    rw [if_pos (Or.inl hmem)]
    simp [Option.orElse, hBt]
  | none =>
    have hnmem : t ∉ tkeys B := (lookupRow_eq_none_iff B t).mp hBt
    have hval : lookupRow (if ratLtB lb la then truncBelow lb A else A) t =
        if lb < la ∧ lb ≤ t then none else lookupRow A t := by
      by_cases hcmp : ratLtB lb la = true
      · rw [if_pos hcmp, lookup_truncBelow]
        have hlb : lb < la := (ratLtB_iff lb la).mp hcmp
        by_cases htlb : t < lb
        · rw [if_pos htlb, if_neg (fun hc => absurd htlb (not_lt.mpr hc.2))]
        · rw [if_neg htlb, if_pos ⟨hlb, not_lt.mp htlb⟩]
      · rw [if_neg hcmp]
        have hnlb : ¬ lb < la := fun hc => hcmp ((ratLtB_iff lb la).mpr hc)
        rw [if_neg (fun hc => hnlb hc.1)]
    by_cases hAt : t ∈ tkeys (if ratLtB lb la then truncBelow lb A else A)
    · rw [if_pos (Or.inr hAt)]
      exact hval
    · rw [if_neg (by rintro (hc | hc); exact hnmem hc; exact hAt hc)]
      rw [(lookupRow_eq_none_iff _ t).mpr hAt] at hval
      exact hval

/-- C1 (witness): the amended theorem evaluated at window A = times 0, 85 and
window B = times 80, 150, at time t = 85. -/

theorem c1_merge_truncates_at_latest_witness :
    (combine_oftime [[(0, [3]), (85, [7])], [(80, [11]), (150, [13])]]).bind
      (fun m => lookupRow m 85) =
      match lookupRow [(80, [11]), (150, [13])] 85 with
      | some v => some v
      | none =>
        if (150 : Rat) < 85 ∧ (150 : Rat) ≤ 85 then none
        else lookupRow [(0, [3]), (85, [7])] 85 :=
  c1_merge_truncates_at_latest [(0, [3]), (85, [7])] [(80, [11]), (150, [13])]
    85 150 (by decide) (by decide) 85

/-- C6: for a non-empty list of windows whose (non-empty) tables have unique,
non-decreasing time values, the merge succeeds and the merged series has
strictly increasing, duplicate-free time values, so each (time, column) pair
has exactly one value. -/

theorem c6_merged_strictly_increasing (tables : List TTable)
    (hne : tables ≠ [])
    (htab : tables.all (fun t => !t.isEmpty) = true)
    (hhyp : tables.all (fun t => nondecB (tkeys t) && nodupB (tkeys t)) = true) :
    (combine_oftime tables).isSome = true ∧
      (mergedKeys tables).Pairwise (fun a b => a < b) ∧
      (mergedKeys tables).Nodup := by
  rcases exists_getLast? tables hne with ⟨d, hd⟩
  have hdmem : d ∈ tables := mem_of_getLast?Eq hd
  have hdne : d ≠ [] := by
    have := List.all_eq_true.mp htab d hdmem
    simpa using this
  have hdhyp := List.all_eq_true.mp hhyp d hdmem
  rw [Bool.and_eq_true] at hdhyp
  have hdsorted : (tkeys d).Pairwise (fun a b => a < b) :=
    pairwise_lt_of_nondec_nodup _ hdhyp.1 hdhyp.2
  have hrest : ∀ i ∈ tables.dropLast.reverse, i ≠ [] := by
    intro i hi
    have hi2 : i ∈ tables := List.dropLast_subset tables (List.mem_reverse.mp hi)
    have := List.all_eq_true.mp htab i hi2
    simpa using this
  rcases merge_fold_ok tables.dropLast.reverse d hdne hdsorted hrest with
    ⟨m, hm, _, hmsorted⟩
  have hco : combine_oftime tables = some m := by
    unfold combine_oftime
    rw [hd]
    exact hm
  refine ⟨by rw [hco]; rfl, ?_, ?_⟩
  · unfold mergedKeys
    rw [hco]
    exact hmsorted
  · unfold mergedKeys
    rw [hco]
    exact List.Pairwise.imp ne_of_lt hmsorted

/-- C6 (witness): two overlapping windows with strictly increasing indexes. -/

theorem c6_merged_strictly_increasing_witness :
    (combine_oftime [[(0, [1]), (1, [2])], [(1, [5]), (2, [6])]]).isSome = true ∧
      (mergedKeys [[(0, [1]), (1, [2])], [(1, [5]), (2, [6])]]).Pairwise
        (fun a b => a < b) ∧
      (mergedKeys [[(0, [1]), (1, [2])], [(1, [5]), (2, [6])]]).Nodup :=
  c6_merged_strictly_increasing [[(0, [1]), (1, [2])], [(1, [5]), (2, [6])]]
    (by decide) (by decide) (by decide)

/-- C3 (counterexample): a directory entry that starts with a digit but does
not parse as a number is not ignored: `sorted(..., key=float)` raises a
ValueError for the name 0abc, where the claim asserts the entry is ignored
without error (the result would then be an empty, error-free listing). -/

theorem c3_counterexample :
    list_time_dirs ["0abc"] = .error "ValueError" ∧
      matchesGlob "0abc" = true ∧ pyFloat? "0abc" = none := by
  refine ⟨?_, ?_, ?_⟩
  · rfl
  · rfl
  · rfl

/-- C3 (amended): whenever discovery returns at all, it returns exactly the
entries whose full name starts with a decimal digit (all other entries are
ignored without error); an entry that starts with a digit but does not parse
as a number instead makes the whole discovery raise a ValueError. -/

theorem c3_discovery_membership (entries l : List String)
    (h : list_time_dirs entries = .ok l) :
    List.Perm l (entries.filter matchesGlob) ∧
      (entries.filter matchesGlob).all (fun s => (pyFloat? s).isSome) = true := by
  unfold list_time_dirs at h
  by_cases hall : (entries.filter matchesGlob).all (fun s => (pyFloat? s).isSome) = true
  · rw [if_pos hall] at h
    have hl : l = sortByKey nameLeB (entries.filter matchesGlob) :=
      (Except.ok.inj h).symm
    exact ⟨hl ▸ sortByKey_perm nameLeB _, hall⟩
  · rw [if_neg hall] at h
    cases h

/-- C3 (witness): a listing with one numeric and one non-numeric entry. -/

theorem c3_discovery_membership_witness :
    List.Perm ["1"] (["1", "foo"].filter matchesGlob) ∧
      (["1", "foo"].filter matchesGlob).all (fun s => (pyFloat? s).isSome) = true :=
  c3_discovery_membership ["1", "foo"] ["1"] (by rfl)

/-- C8 (counterexample): the directory name .5 parses as the non-negative
number 1/2, yet discovery does not return it: the glob `[0-9]*` only admits
names that start with a digit, so the listing comes back empty rather than
containing .5. -/

theorem c8_counterexample :
    list_time_dirs [".5"] = .ok [] ∧ pyFloat? ".5" = some (mkRat 1 2) := by
  refine ⟨?_, ?_⟩
  · rfl
  · rfl

/-- C8 (amended): for entries that all start with a digit and all parse as
numbers, discovery returns exactly those entries, ordered ascending by their
numeric value. -/

theorem c8_discovery_sorted (entries l : List String)
    (hglob : entries.all matchesGlob = true)
    (h : list_time_dirs entries = .ok l) :
    List.Perm l entries ∧
      l.Pairwise (fun a b => floatKey a ≤ floatKey b) := by
  have hfilter : entries.filter matchesGlob = entries :=
    List.filter_eq_self.mpr (List.all_eq_true.mp hglob)
  unfold list_time_dirs at h
  rw [hfilter] at h
  by_cases hall : entries.all (fun s => (pyFloat? s).isSome) = true
  · rw [if_pos hall] at h
    have hl : l = sortByKey nameLeB entries := (Except.ok.inj h).symm
    constructor
    · exact hl ▸ sortByKey_perm nameLeB entries
    · have hsorted := sortByKey_sorted nameLeB
        (fun a b => ratLeB_total (floatKey a) (floatKey b))
        (fun a b c => ratLeB_trans (floatKey a) (floatKey b) (floatKey c))
        entries
      rw [hl]
      exact hsorted.imp (fun hab => (ratLeB_iff _ _).mp hab)
  · rw [if_neg hall] at h
    cases h

/-- C8 (witness): the names 2, 10, 1 come back in numeric order 1, 2, 10. -/

theorem c8_discovery_sorted_witness :
    List.Perm ["1", "2", "10"] ["2", "10", "1"] ∧
      (["1", "2", "10"] : List String).Pairwise
        (fun a b => floatKey a ≤ floatKey b) :=
  c8_discovery_sorted ["2", "10", "1"] ["1", "2", "10"] (by rfl) (by rfl)

/-- C2 (counterexample): on a series with times 0, 50, 100, 150 and bounds
tmin = 50, tmax = 100, the code's filter keeps nothing at all (both bounds
are strict), while the claimed inclusive filter keeps the rows at times 50
and 100. -/

theorem c2_counterexample :
    time_range (some 50) (some 100)
        ⟨["time", "v"], [[0, 1], [50, 2], [100, 3], [150, 4]]⟩ =
      .ok ⟨["time", "v"], []⟩ ∧
    claimed_time_range (some 50) (some 100)
        ⟨["time", "v"], [[0, 1], [50, 2], [100, 3], [150, 4]]⟩ =
      .ok ⟨["time", "v"], [[50, 2], [100, 3]]⟩ ∧
    time_range (some 50) (some 100)
        ⟨["time", "v"], [[0, 1], [50, 2], [100, 3], [150, 4]]⟩ ≠
      claimed_time_range (some 50) (some 100)
        ⟨["time", "v"], [[0, 1], [50, 2], [100, 3], [150, 4]]⟩ := by
  refine ⟨by decide, by decide, by decide⟩

/-- C2 (amended): on a series with a time column, the final time-range filter
keeps exactly the rows whose time t satisfies tmin < t and t < tmax (strict
on both sides, each bound independently optional). -/

theorem c2_time_range_strict (df : DF) (tmin tmax : Option Rat)
    (hname : df.names.contains "time" = true) :
    time_range tmin tmax df =
      .ok { df with rows := df.rows.filter (fun r =>
        tmin.all (fun a => ratLtB a (timeCell df r)) &&
        tmax.all (fun b => ratLtB (timeCell df r) b)) } := by
  cases tmin with
  | none =>
    cases tmax with
    | none =>
      unfold time_range tr_lower tr_upper
      simp [timeCell]
    | some b =>
      unfold time_range tr_lower tr_upper
      dsimp only
      rw [if_pos hname]
      simp [timeCell]
  | some a =>
    cases tmax with
    | none =>
      unfold time_range tr_lower tr_upper
      dsimp only
      rw [if_pos hname]
      simp [timeCell]
    | some b =>
      unfold time_range tr_lower tr_upper
      dsimp only
      rw [if_pos hname]
      dsimp only
      rw [if_pos hname]
      congr 1
      simp only [List.filter_filter, timeCell, Option.all_some]
      congr 1
      exact List.filter_congr (fun x _ => Bool.and_comm _ _)

/-- C2 (witness): the amended filter evaluated on the counterexample series
with bounds 50 and 100. -/

theorem c2_time_range_strict_witness :
    time_range (some 50) (some 100)
        ⟨["time", "v"], [[0, 1], [50, 2], [100, 3], [150, 4]]⟩ =
      .ok { DF.mk ["time", "v"] [[0, 1], [50, 2], [100, 3], [150, 4]] with
        rows := [[(0 : Rat), 1], [50, 2], [100, 3], [150, 4]].filter (fun r =>
          (some (50 : Rat)).all (fun a =>
            ratLtB a (timeCell ⟨["time", "v"], [[0, 1], [50, 2], [100, 3], [150, 4]]⟩ r)) &&
          (some (100 : Rat)).all (fun b =>
            ratLtB (timeCell ⟨["time", "v"], [[0, 1], [50, 2], [100, 3], [150, 4]]⟩ r) b)) } :=
  c2_time_range_strict ⟨["time", "v"], [[0, 1], [50, 2], [100, 3], [150, 4]]⟩
    (some 50) (some 100) (by rfl)

/-- C5 (counterexample): with the rank table containing only the label time,
a table with columns c0, time is left completely untouched by sort_fields
(the KeyError for the unlisted c0 aborts the sort), while the claimed
behavior puts the ranked time column first and c0 after it. -/

theorem c5_counterexample :
    sort_fields [("time", -1)] ⟨["c0", "time"], [[1, 2]]⟩ =
      ⟨["c0", "time"], [[1, 2]]⟩ ∧
    claimed_sort_fields [("time", -1)] ⟨["c0", "time"], [[1, 2]]⟩ =
      ⟨["time", "c0"], [[2, 1]]⟩ ∧
    sort_fields [("time", -1)] ⟨["c0", "time"], [[1, 2]]⟩ ≠
      claimed_sort_fields [("time", -1)] ⟨["c0", "time"], [[1, 2]]⟩ := by
  refine ⟨by decide, by decide, by decide⟩

theorem intLeB_total (a b : Int) : intLeB a b = false → intLeB b a = true := by
  intro h
  unfold intLeB at *
  rcases le_total a b with hab | hba
  · rw [decide_eq_true hab] at h
    cases h
  · exact decide_eq_true hba

theorem intLeB_trans (a b c : Int) :
    intLeB a b = true → intLeB b c = true → intLeB a c = true := by
  intro h1 h2
  exact decide_eq_true (le_trans (of_decide_eq_true h1) (of_decide_eq_true h2))

/-- C5 (amended): when every column label is listed in the profile's rank
table, sort_fields arranges the columns in ascending rank (a permutation of
the original columns, stable on equal ranks); when any column is unlisted
the sort is skipped and the table keeps its original column order. -/

theorem c5_sort_fields_ranked (order : List (String × Int)) (df : DF)
    (h : df.names.all (fun c => (lookupRank order c).isSome) = true) :
    List.Perm (sort_fields order df).names df.names ∧
      (sort_fields order df).names.Pairwise
        (fun a b => (lookupRank order a).getD 0 ≤ (lookupRank order b).getD 0) := by
  unfold sort_fields
  rw [if_pos h]
  constructor
  · exact sortByKey_perm (rankLeB order) df.names
  · have hsorted := sortByKey_sorted (rankLeB order)
      (fun a b => intLeB_total ((lookupRank order a).getD 0) ((lookupRank order b).getD 0))
      (fun a b c => intLeB_trans ((lookupRank order a).getD 0)
        ((lookupRank order b).getD 0) ((lookupRank order c).getD 0))
      df.names
    exact hsorted.imp (fun hab => of_decide_eq_true hab)

/-- C5 (witness): the fully listed forces columns time, fx get sorted by
rank. -/

theorem c5_sort_fields_ranked_witness :
    List.Perm (sort_fields [("time", -1), ("fx", 0)] ⟨["fx", "time"], [[1, 2]]⟩).names
      (DF.mk ["fx", "time"] [[1, 2]]).names ∧
      (sort_fields [("time", -1), ("fx", 0)] ⟨["fx", "time"], [[1, 2]]⟩).names.Pairwise
        (fun a b => (lookupRank [("time", -1), ("fx", 0)] a).getD 0 ≤
          (lookupRank [("time", -1), ("fx", 0)] b).getD 0) :=
  c5_sort_fields_ranked [("time", -1), ("fx", 0)] ⟨["fx", "time"], [[1, 2]]⟩ (by rfl)

/-- C7: when the maximum file-modification time across the discovered time
windows equals the reader's stored mtime, load_data returns the previously
cached series bit-identically (only the up_to_date flag is set), for every
possible merge function and every possible customization function -- i.e.
neither the merge nor the customization step is run. -/

theorem c7_cache_hit (mergeF : List DF → DF) (customizeF : DF → DF)
    (ws : List Window) (st : PPState)
    (h : maxMtime ws = some st.mtime) :
    load_dataS mergeF customizeF ws st = { st with upToDate := true } := by
  cases ws with
  | nil => cases h
  | cons w rest =>
    have hmax : rest.foldl (fun a w2 => ratMax a w2.mtime) w.mtime = st.mtime := by
      have h2 := h
      unfold maxMtime at h2
      exact Option.some.inj h2
    have hcomb : combine_oftime_filesS mergeF (w :: rest) st = { st with upToDate := true } := by
      unfold combine_oftime_filesS
      dsimp only
      rw [hmax]
      simp
    unfold load_dataS
    rw [hcomb]
    unfold postCustomize
    simp

/-- C7 (witness): a one-window case whose mtime matches the cached state. -/

theorem c7_cache_hit_witness :
    load_dataS (fun _ => DF.empty) (fun d => d) [⟨5, DF.empty⟩]
        ⟨5, false, ⟨["a"], [[1]]⟩⟩ =
      { PPState.mk 5 false ⟨["a"], [[1]]⟩ with upToDate := true } :=
  c7_cache_hit (fun _ => DF.empty) (fun d => d) [⟨5, DF.empty⟩]
    ⟨5, false, ⟨["a"], [[1]]⟩⟩ (by decide)

/-- C4: with zero time windows, combine_oftime_files leaves up_to_date false
and sets the empty DataFrame, so load_data goes on to call customize; the
waveBuoy customization then evaluates `self.data.loc[:, ['time']]` on the
empty DataFrame and raises a KeyError instead of returning the empty series
the claim (and the spec's empty-case contract) promises. -/

theorem c4_wavebuoy_empty_case_error :
    (combine_oftime_filesS (fun _ => DF.empty) [] ⟨0, false, DF.empty⟩).upToDate = false ∧
    (combine_oftime_filesS (fun _ => DF.empty) [] ⟨0, false, DF.empty⟩).data = DF.empty ∧
    waveBuoy_customize none none DF.empty = .error "KeyError" := by
  refine ⟨by decide, by decide, by decide⟩

/-! ## Cell-level lemmas for column assignment and removal -/

theorem beq_symm_false (a b : String) (h : (a == b) = false) :
    (b == a) = false := by
  cases hh : (b == a)
  · rfl
  · exfalso
    have hba : b = a := by simpa using hh
    subst hba
    simp at h

theorem cell_cons (n : String) (ns : List String) (v : Rat) (vs : List Rat)
    (c : String) :
    cell (n :: ns) (v :: vs) c = if n == c then some v else cell ns vs c :=
  rfl

theorem cell_overwrite (names : List String) (r : List Rat) (c : String)
    (x : Rat) (hlen : r.length = names.length) :
    cell names ((names.zip r).map (fun p => if p.1 == c then x else p.2)) c =
      if names.contains c then some x else none := by
  induction names generalizing r with
  | nil =>
    cases r with
    | nil => rfl
    | cons v vs => cases hlen
  | cons n ns ih =>
    cases r with
    | nil => cases hlen
    | cons v vs =>
      have hlen2 : vs.length = ns.length := by simpa using hlen
      rw [show ((n :: ns).zip (v :: vs)).map (fun p => if p.1 == c then x else p.2) =
        (if n == c then x else v) ::
          (ns.zip vs).map (fun p => if p.1 == c then x else p.2) from rfl]
      rw [cell_cons, List.contains_cons, ih vs hlen2]
      by_cases hn : (n == c) = true
      · have hcn : (c == n) = true := by
          have : n = c := by simpa using hn
          simp [this]
      
        simp [hn, hcn]
      · have hnf : (n == c) = false := by
          cases hh : (n == c)
          · rfl
          · exact absurd hh hn
        have hcn : (c == n) = false := beq_symm_false n c hnf
        simp [hnf, hcn]

theorem cell_overwrite_other (names : List String) (r : List Rat)
    (c c2 : String) (x : Rat) (hlen : r.length = names.length)
    (hne : c2 ≠ c) :
    cell names ((names.zip r).map (fun p => if p.1 == c then x else p.2)) c2 =
      cell names r c2 := by
  induction names generalizing r with
  | nil =>
    cases r with
    | nil => rfl
    | cons v vs => cases hlen
  | cons n ns ih =>
    cases r with
    | nil => cases hlen
    | cons v vs =>
      have hlen2 : vs.length = ns.length := by simpa using hlen
      rw [show ((n :: ns).zip (v :: vs)).map (fun p => if p.1 == c then x else p.2) =
        (if n == c then x else v) ::
          (ns.zip vs).map (fun p => if p.1 == c then x else p.2) from rfl]
      rw [cell_cons, cell_cons, ih vs hlen2]
      by_cases hn2 : (n == c2) = true
      · have hn : (n == c) = false := by
          have h2 : n = c2 := by simpa using hn2
          subst h2
          simpa using hne
        simp [hn, hn2]
      · simp [hn2]

theorem cell_append_self (names : List String) (r : List Rat) (c : String)
    (x : Rat) (hlen : r.length = names.length)
    (hc : names.contains c = false) :
    cell (names ++ [c]) (r ++ [x]) c = some x := by
  induction names generalizing r with
  | nil =>
    cases r with
    | nil => simp [cell]
    | cons v vs => cases hlen
  | cons n ns ih =>
    cases r with
    | nil => cases hlen
    | cons v vs =>
      have hlen2 : vs.length = ns.length := by simpa using hlen
      rw [List.contains_cons] at hc
      have hcn : (c == n) = false := by
        cases hh : (c == n)
        · rfl
        · rw [hh] at hc; cases hc
      have hc2 : ns.contains c = false := by
        cases hh : ns.contains c
        · rfl
        · rw [hh] at hc; simp at hc
      have hn : (n == c) = false := beq_symm_false c n hcn
      rw [List.cons_append, List.cons_append, cell_cons, hn]
      simp only [if_false, Bool.false_eq_true]
      exact ih vs hlen2 hc2

theorem cell_append_other (names : List String) (r : List Rat) (c c2 : String)
    (x : Rat) (hlen : r.length = names.length) (hne : c2 ≠ c) :
    cell (names ++ [c]) (r ++ [x]) c2 = cell names r c2 := by
  induction names generalizing r with
  | nil =>
    cases r with
    | nil =>
      have hf : (c2 == c) = false := by simpa using hne
      have : (c == c2) = false := beq_symm_false c2 c hf
      simp [cell, this]
    | cons v vs => cases hlen
  | cons n ns ih =>
    cases r with
    | nil => cases hlen
    | cons v vs =>
      have hlen2 : vs.length = ns.length := by simpa using hlen
      rw [List.cons_append, List.cons_append, cell_cons, cell_cons, ih vs hlen2]

theorem cell_drop_kept (names : List String) (r : List Rat) (cs : List String)
    (c : String) (hlen : r.length = names.length)
    (hc : cs.contains c = false) :
    cell (names.filter (fun n => !(cs.contains n)))
      (((names.zip r).filter (fun p => !(cs.contains p.1))).map Prod.snd) c =
      cell names r c := by
  induction names generalizing r with
  | nil =>
    cases r with
    | nil => rfl
    | cons v vs => cases hlen
  | cons n ns ih =>
    cases r with
    | nil => cases hlen
    | cons v vs =>
      have hlen2 : vs.length = ns.length := by simpa using hlen
      rw [show ((n :: ns).zip (v :: vs)).filter (fun p => !(cs.contains p.1)) =
        if (!(cs.contains n)) = true then
          (n, v) :: (ns.zip vs).filter (fun p => !(cs.contains p.1))
        else (ns.zip vs).filter (fun p => !(cs.contains p.1)) from by
          rw [show (n :: ns).zip (v :: vs) = (n, v) :: ns.zip vs from rfl,
            List.filter_cons]]
      rw [List.filter_cons]
      by_cases hdrop : cs.contains n = true
      · have hn : (n == c) = false := by
          have : ¬ n = c := fun h => by rw [h] at hdrop; rw [hdrop] at hc; cases hc
          simpa using this
        have hkeep : (!(cs.contains n)) = false := by rw [hdrop]; rfl
        rw [hkeep]
        simp only [if_false, Bool.false_eq_true]
        rw [ih vs hlen2, cell_cons, hn]
        simp
      · have hdropf : cs.contains n = false := by
          cases hh : cs.contains n
          · rfl
          · exact absurd hh hdrop
        have hkeep : (!(cs.contains n)) = true := by rw [hdropf]; rfl
        rw [hkeep]
        simp only [if_true, List.map_cons]
        rw [cell_cons, cell_cons, ih vs hlen2]

theorem contains_filter_dropped (names cs : List String) (c : String)
    (hc : cs.contains c = true) :
    (names.filter (fun n => !(cs.contains n))).contains c = false := by
  induction names with
  | nil => rfl
  | cons n ns ih =>
    rw [List.filter_cons]
    by_cases hdrop : cs.contains n = true
    · have hkeep : (!(cs.contains n)) = false := by rw [hdrop]; rfl
      rw [hkeep]
      simp only [if_false, Bool.false_eq_true]
      exact ih
    · have hdropf : cs.contains n = false := by
        cases hh : cs.contains n
        · rfl
        · exact absurd hh hdrop
      have hkeep : (!(cs.contains n)) = true := by rw [hdropf]; rfl
      rw [hkeep]
      simp only [if_true, List.contains_cons]
      have hcn : (c == n) = false := by
        have : ¬ c = n := fun h => by rw [h] at hc; rw [hc] at hdropf; cases hdropf
        simpa using this
      rw [hcn, ih]
      rfl

theorem contains_filter_kept (names cs : List String) (c : String)
    (hc : cs.contains c = false) :
    (names.filter (fun n => !(cs.contains n))).contains c = names.contains c := by
  induction names with
  | nil => rfl
  | cons n ns ih =>
    rw [List.filter_cons]
    by_cases hdrop : cs.contains n = true
    · have hkeep : (!(cs.contains n)) = false := by rw [hdrop]; rfl
      rw [hkeep]
      simp only [if_false, Bool.false_eq_true]
      have hcn : (c == n) = false := by
        have : ¬ c = n := fun h => by rw [h] at hc; rw [hdrop] at hc; cases hc
        simpa using this
      rw [ih, List.contains_cons, hcn]
      rfl
    · have hdropf : cs.contains n = false := by
        cases hh : cs.contains n
        · rfl
        · exact absurd hh hdrop
      have hkeep : (!(cs.contains n)) = true := by rw [hdropf]; rfl
      rw [hkeep]
      simp only [if_true, List.contains_cons, List.contains_cons]
      rw [ih]

/-! ## Column-level lemmas -/

theorem contains_append_right (names : List String) (c : String) :
    (names ++ [c]).contains c = true := by
  induction names with
  | nil => simp
  | cons n ns ih =>
    rw [List.cons_append, List.contains_cons, ih]
    exact Bool.or_true _

theorem contains_append_other (names : List String) (c c2 : String)
    (hne : c2 ≠ c) :
    (names ++ [c]).contains c2 = names.contains c2 := by
  induction names with
  | nil =>
    show ([c].contains c2) = ([] : List String).contains c2
    rw [List.contains_cons]
    have hf : (c2 == c) = false := by simpa using hne
    rw [hf]
    rfl
  | cons n ns ih =>
    rw [List.cons_append, List.contains_cons, ih, List.contains_cons]

theorem getColVals_eq_some (df : DF) (c : String) (a : List Rat)
    (h : getColVals df c = some a) :
    df.names.contains c = true ∧
      a = df.rows.map (fun r => (cell df.names r c).getD 0) := by
  unfold getColVals at h
  by_cases hc : df.names.contains c = true
  · rw [if_pos hc] at h
    exact ⟨hc, (Option.some.inj h).symm⟩
  · rw [if_neg hc] at h
    cases h

theorem map_cell_overwrite (names : List String) (c : String)
    (rows : List (List Rat)) (v : List Rat)
    (hwf : ∀ r ∈ rows, r.length = names.length)
    (hlen : v.length = rows.length)
    (hc : names.contains c = true) :
    (List.zipWith
        (fun r x => (names.zip r).map (fun p => if p.1 == c then x else p.2))
        rows v).map (fun r => (cell names r c).getD 0) = v := by
  induction rows generalizing v with
  | nil =>
    cases v with
    | nil => rfl
    | cons x xs => cases hlen
  | cons r rows2 ih =>
    cases v with
    | nil => cases hlen
    | cons x xs =>
      have hlen2 : xs.length = rows2.length := by simpa using hlen
      rw [List.zipWith_cons_cons, List.map_cons]
      rw [cell_overwrite names r c x (hwf r (List.mem_cons_self r rows2)), if_pos hc]
      rw [ih xs (fun r2 hr2 => hwf r2 (List.mem_cons_of_mem r hr2)) hlen2]
      rfl

theorem map_cell_append (names : List String) (c : String)
    (rows : List (List Rat)) (v : List Rat)
    (hwf : ∀ r ∈ rows, r.length = names.length)
    (hlen : v.length = rows.length)
    (hc : names.contains c = false) :
    (List.zipWith (fun r x => r ++ [x]) rows v).map
      (fun r => (cell (names ++ [c]) r c).getD 0) = v := by
  induction rows generalizing v with
  | nil =>
    cases v with
    | nil => rfl
    | cons x xs => cases hlen
  | cons r rows2 ih =>
    cases v with
    | nil => cases hlen
    | cons x xs =>
      have hlen2 : xs.length = rows2.length := by simpa using hlen
      rw [List.zipWith_cons_cons, List.map_cons]
      rw [cell_append_self names r c x (hwf r (List.mem_cons_self r rows2)) hc]
      rw [ih xs (fun r2 hr2 => hwf r2 (List.mem_cons_of_mem r hr2)) hlen2]
      rfl

theorem getColVals_setCol_self (df : DF) (c : String) (v : List Rat)
    (hwf : DF.wf df) (hlen : v.length = df.rows.length) :
    getColVals (setCol df c v) c = some v := by
  unfold setCol
  by_cases hc : df.names.contains c = true
  · rw [if_pos hc]
    unfold getColVals
    rw [if_pos hc]
    rw [map_cell_overwrite df.names c df.rows v hwf hlen hc]
  · rw [if_neg hc]
    unfold getColVals
    have hc2 : df.names.contains c = false := by
      cases hh : df.names.contains c
      · rfl
      · exact absurd hh hc
    rw [if_pos (contains_append_right df.names c)]
    rw [map_cell_append df.names c df.rows v hwf hlen hc2]

theorem map_cell_zip_other (names : List String) (c c2 : String)
    (rows : List (List Rat)) (v : List Rat)
    (hwf : ∀ r ∈ rows, r.length = names.length)
    (hlen : v.length = rows.length) (hne : c2 ≠ c) :
    (List.zipWith
        (fun r x => (names.zip r).map (fun p => if p.1 == c then x else p.2))
        rows v).map (fun r => (cell names r c2).getD 0) =
      rows.map (fun r => (cell names r c2).getD 0) := by
  induction rows generalizing v with
  | nil =>
    cases v with
    | nil => rfl
    | cons x xs => cases hlen
  | cons r rows2 ih =>
    cases v with
    | nil => cases hlen
    | cons x xs =>
      have hlen2 : xs.length = rows2.length := by simpa using hlen
      rw [List.zipWith_cons_cons, List.map_cons, List.map_cons]
      rw [cell_overwrite_other names r c c2 x
        (hwf r (List.mem_cons_self r rows2)) hne]
      rw [ih xs (fun r2 hr2 => hwf r2 (List.mem_cons_of_mem r hr2)) hlen2]

theorem map_cell_append_other (names : List String) (c c2 : String)
    (rows : List (List Rat)) (v : List Rat)
    (hwf : ∀ r ∈ rows, r.length = names.length)
    (hlen : v.length = rows.length) (hne : c2 ≠ c) :
    (List.zipWith (fun r x => r ++ [x]) rows v).map
      (fun r => (cell (names ++ [c]) r c2).getD 0) =
      rows.map (fun r => (cell names r c2).getD 0) := by
  induction rows generalizing v with
  | nil =>
    cases v with
    | nil => rfl
    | cons x xs => cases hlen
  | cons r rows2 ih =>
    cases v with
    | nil => cases hlen
    | cons x xs =>
      have hlen2 : xs.length = rows2.length := by simpa using hlen
      rw [List.zipWith_cons_cons, List.map_cons, List.map_cons]
      rw [cell_append_other names r c c2 x
        (hwf r (List.mem_cons_self r rows2)) hne]
      rw [ih xs (fun r2 hr2 => hwf r2 (List.mem_cons_of_mem r hr2)) hlen2]

theorem getColVals_setCol_other (df : DF) (c c2 : String) (v : List Rat)
    (hwf : DF.wf df) (hlen : v.length = df.rows.length) (hne : c2 ≠ c) :
    getColVals (setCol df c v) c2 = getColVals df c2 := by
  unfold setCol
  by_cases hc : df.names.contains c = true
  · rw [if_pos hc]
    unfold getColVals
    by_cases hc2 : df.names.contains c2 = true
    · rw [if_pos hc2, if_pos hc2]
      congr 1
      exact map_cell_zip_other df.names c c2 df.rows v hwf hlen hne
    · rw [if_neg hc2, if_neg hc2]
  · rw [if_neg hc]
    unfold getColVals
    rw [contains_append_other df.names c c2 hne]
    by_cases hc2 : df.names.contains c2 = true
    · rw [if_pos hc2, if_pos hc2]
      congr 1
      exact map_cell_append_other df.names c c2 df.rows v hwf hlen hne
    · rw [if_neg hc2, if_neg hc2]

theorem getColVals_dropCols_dropped (df : DF) (cs : List String) (c : String)
    (hc : cs.contains c = true) :
    getColVals (dropCols cs df) c = none := by
  unfold dropCols getColVals
  rw [if_neg]
  intro hcontra
  rw [contains_filter_dropped df.names cs c hc] at hcontra
  cases hcontra

theorem getColVals_dropCols_kept (df : DF) (cs : List String) (c : String)
    (hwf : DF.wf df) (hc : cs.contains c = false) :
    getColVals (dropCols cs df) c = getColVals df c := by
  unfold dropCols getColVals
  rw [contains_filter_kept df.names cs c hc]
  by_cases hc2 : df.names.contains c = true
  · rw [if_pos hc2, if_pos hc2]
    congr 1
    rw [List.map_map]
    refine List.map_congr_left (fun r hr => ?_)
    show (cell (df.names.filter (fun n => !(cs.contains n)))
      (((df.names.zip r).filter (fun p => !(cs.contains p.1))).map Prod.snd) c).getD 0 = _
    rw [cell_drop_kept df.names r cs c (hwf r hr) hc]
  · rw [if_neg hc2, if_neg hc2]

/-- C9: on a well-formed merged forces table containing both fxp and fxv, the
derivation step adds a column fx equal row-wise to fxp + fxv and changes no
other column; when fxp or fxv is missing, the step leaves the table exactly
unchanged and raises no error. -/

theorem c9_forces_fx (df : DF) (hwf : DF.wf df) :
    (∀ a b, getColVals df "fxp" = some a → getColVals df "fxv" = some b →
      getColVals (forces_fx df) "fx" =
        some (List.zipWith (fun x y => x + y) a b) ∧
      ∀ c2, c2 ≠ "fx" → getColVals (forces_fx df) c2 = getColVals df c2) ∧
    ((getColVals df "fxp" = none ∨ getColVals df "fxv" = none) →
      forces_fx df = df) := by
  constructor
  · intro a b ha hb
    have hstep : forces_fx df =
        setCol df "fx" (List.zipWith (fun x y => x + y) a b) := by
      unfold forces_fx
      rw [ha, hb]
    have hlena : a.length = df.rows.length := by
      rcases getColVals_eq_some df "fxp" a ha with ⟨_, ha2⟩
      rw [ha2, List.length_map]
    have hlen : (List.zipWith (fun x y => x + y) a b).length ≤ df.rows.length := by
      rw [List.length_zipWith]
      exact le_trans (min_le_left _ _) (le_of_eq hlena)
    have hlenb : b.length = df.rows.length := by
      rcases getColVals_eq_some df "fxv" b hb with ⟨_, hb2⟩
      rw [hb2, List.length_map]
    have hlen2 : (List.zipWith (fun x y => x + y) a b).length = df.rows.length := by
      rw [List.length_zipWith, hlena, hlenb, min_self]
    constructor
    · rw [hstep]
      exact getColVals_setCol_self df "fx" _ hwf hlen2
    · intro c2 hc2
      rw [hstep]
      exact getColVals_setCol_other df "fx" c2 _ hwf hlen2 hc2
  · intro h
    unfold forces_fx
    cases hx : getColVals df "fxp" with
    | none => rfl
    | some a =>
      cases hy : getColVals df "fxv" with
      | none => rfl
      | some b =>
        rcases h with h | h
        · rw [hx] at h
          cases h
        · rw [hy] at h
          cases h

/-- C9 (witness): a forces table with fxp = 1 and fxv = 1/2 in one row gets
fx = 1 + 1/2 in that row. -/

theorem c9_forces_fx_witness :
    DF.wf ⟨["time", "fxp", "fxv"], [[0, 1, mkRat 1 2]]⟩ ∧
      getColVals (forces_fx ⟨["time", "fxp", "fxv"], [[0, 1, mkRat 1 2]]⟩) "fx" =
        some (List.zipWith (fun x y => x + y) [1] [mkRat 1 2]) :=
  ⟨by decide,
    ((c9_forces_fx ⟨["time", "fxp", "fxv"], [[0, 1, mkRat 1 2]]⟩ (by decide)).1
      [1] [mkRat 1 2] (by rfl) (by rfl)).1⟩

theorem wf_zipWith_overwrite (names : List String) (c : String)
    (rows : List (List Rat)) (v : List Rat)
    (hwf : ∀ r ∈ rows, r.length = names.length) :
    ∀ r ∈ List.zipWith
      (fun r x => (names.zip r).map (fun p => if p.1 == c then x else p.2))
      rows v, r.length = names.length := by
  induction rows generalizing v with
  | nil =>
    intro r hr
    simp at hr
  | cons r0 rows2 ih =>
    cases v with
    | nil =>
      intro r hr
      simp at hr
    | cons x xs =>
      intro r hr
      rw [List.zipWith_cons_cons] at hr
      rcases List.mem_cons.mp hr with rfl | hr
      · rw [List.length_map, List.length_zip,
          hwf r0 (List.mem_cons_self r0 rows2), min_self]
      · exact ih xs (fun r2 hr2 => hwf r2 (List.mem_cons_of_mem r0 hr2)) r hr

theorem wf_zipWith_append (names : List String) (c : String)
    (rows : List (List Rat)) (v : List Rat)
    (hwf : ∀ r ∈ rows, r.length = names.length) :
    ∀ r ∈ List.zipWith (fun r x => r ++ [x]) rows v,
      r.length = (names ++ [c]).length := by
  induction rows generalizing v with
  | nil =>
    intro r hr
    simp at hr
  | cons r0 rows2 ih =>
    cases v with
    | nil =>
      intro r hr
      simp at hr
    | cons x xs =>
      intro r hr
      rw [List.zipWith_cons_cons] at hr
      rcases List.mem_cons.mp hr with rfl | hr
      · rw [List.length_append, List.length_append,
          hwf r0 (List.mem_cons_self r0 rows2)]
        rfl
      · exact ih xs (fun r2 hr2 => hwf r2 (List.mem_cons_of_mem r0 hr2)) r hr

theorem wf_setCol (df : DF) (c : String) (v : List Rat) (hwf : DF.wf df) :
    DF.wf (setCol df c v) := by
  unfold setCol
  by_cases hc : df.names.contains c = true
  · rw [if_pos hc]
    exact wf_zipWith_overwrite df.names c df.rows v hwf
  · rw [if_neg hc]
    exact wf_zipWith_append df.names c df.rows v hwf

theorem sumsq_map_abs (x y z : List Rat) :
    (List.zipWith (fun a b => a + b)
      (List.zipWith (fun a b => a + b) (x.map (fun a => a ^ 2))
        (y.map (fun b => b ^ 2)))
      (z.map (fun c => c ^ 2))).map (fun v => |v| / 3) =
    (List.zipWith (fun a b => a + b)
      (List.zipWith (fun a b => a + b) (x.map (fun a => a ^ 2))
        (y.map (fun b => b ^ 2)))
      (z.map (fun c => c ^ 2))).map (fun v => v / 3) := by
  induction x generalizing y z with
  | nil => rfl
  | cons a x2 ih =>
    cases y with
    | nil => rfl
    | cons b y2 =>
      cases z with
      | nil => rfl
      | cons c z2 =>
        rw [List.map_cons, List.map_cons, List.map_cons,
          List.zipWith_cons_cons, List.zipWith_cons_cons,
          List.map_cons, List.map_cons]
        rw [ih y2 z2]
        have habs : |a ^ 2 + b ^ 2 + c ^ 2| = a ^ 2 + b ^ 2 + c ^ 2 :=
          abs_of_nonneg (by positivity)
        rw [habs]

/-- C10: on a well-formed merged residuals table containing Ux, Uy and Uz,
the customization derives U = (Ux^2 + Uy^2 + Uz^2)/3 row-wise (the np.abs in
the code is redundant on a sum of squares, so no square root and no sign
change is involved), removes the three component columns and touches nothing
else; when a component is missing the table is left exactly unchanged. -/

theorem c10_residuals_U (df : DF) (hwf : DF.wf df) :
    (∀ x y z, getColVals df "Ux" = some x → getColVals df "Uy" = some y →
        getColVals df "Uz" = some z →
      getColVals (residuals_U df) "U" =
        some ((List.zipWith (fun a b => a + b)
          (List.zipWith (fun a b => a + b) (x.map (fun a => a ^ 2))
            (y.map (fun b => b ^ 2)))
          (z.map (fun c => c ^ 2))).map (fun v => v / 3)) ∧
      getColVals (residuals_U df) "Ux" = none ∧
      getColVals (residuals_U df) "Uy" = none ∧
      getColVals (residuals_U df) "Uz" = none ∧
      ∀ c2, c2 ≠ "U" → c2 ≠ "Ux" → c2 ≠ "Uy" → c2 ≠ "Uz" →
        getColVals (residuals_U df) c2 = getColVals df c2) ∧
    ((getColVals df "Ux" = none ∨ getColVals df "Uy" = none ∨
        getColVals df "Uz" = none) → residuals_U df = df) := by
  constructor
  · intro x y z hx hy hz
    have hlenx : x.length = df.rows.length := by
      rcases getColVals_eq_some df "Ux" x hx with ⟨_, h2⟩
      rw [h2, List.length_map]
    have hleny : y.length = df.rows.length := by
      rcases getColVals_eq_some df "Uy" y hy with ⟨_, h2⟩
      rw [h2, List.length_map]
    have hlenz : z.length = df.rows.length := by
      rcases getColVals_eq_some df "Uz" z hz with ⟨_, h2⟩
      rw [h2, List.length_map]
    have hstep : residuals_U df =
        dropCols ["Ux", "Uy", "Uz"] (setCol df "U"
          ((List.zipWith (fun a b => a + b)
            (List.zipWith (fun a b => a + b) (x.map (fun a => a ^ 2))
              (y.map (fun b => b ^ 2)))
            (z.map (fun c => c ^ 2))).map (fun v => |v| / 3))) := by
      unfold residuals_U
      rw [hx, hy, hz]
    have hlenu : ((List.zipWith (fun a b => a + b)
        (List.zipWith (fun a b => a + b) (x.map (fun a => a ^ 2))
          (y.map (fun b => b ^ 2)))
        (z.map (fun c => c ^ 2))).map (fun v => |v| / 3)).length = df.rows.length := by
      rw [List.length_map, List.length_zipWith, List.length_zipWith,
        List.length_map, List.length_map, List.length_map,
        hlenx, hleny, hlenz, min_self, min_self]
    have hwfset : DF.wf (setCol df "U"
        ((List.zipWith (fun a b => a + b)
          (List.zipWith (fun a b => a + b) (x.map (fun a => a ^ 2))
            (y.map (fun b => b ^ 2)))
          (z.map (fun c => c ^ 2))).map (fun v => |v| / 3))) :=
      wf_setCol df "U" _ hwf
    refine ⟨?_, ?_, ?_, ?_, ?_⟩
    · rw [hstep]
      rw [getColVals_dropCols_kept _ _ "U" hwfset (by rfl)]
      rw [getColVals_setCol_self df "U" _ hwf hlenu]
      rw [sumsq_map_abs]
    · rw [hstep]
      exact getColVals_dropCols_dropped _ _ "Ux" (by rfl)
    · rw [hstep]
      exact getColVals_dropCols_dropped _ _ "Uy" (by rfl)
    · rw [hstep]
      exact getColVals_dropCols_dropped _ _ "Uz" (by rfl)
    · intro c2 hu hux huy huz
      have h1 : (c2 == "Ux") = false := by simpa using hux
      have h2 : (c2 == "Uy") = false := by simpa using huy
      have h3 : (c2 == "Uz") = false := by simpa using huz
      have hcs : (["Ux", "Uy", "Uz"] : List String).contains c2 = false := by
        rw [List.contains_cons, List.contains_cons, List.contains_cons,
          h1, h2, h3]
        rfl
      rw [hstep]
      rw [getColVals_dropCols_kept _ _ c2 hwfset hcs]
      exact getColVals_setCol_other df "U" c2 _ hwf hlenu hu
  · intro h
    unfold residuals_U
    cases hx : getColVals df "Ux" with
    | none => rfl
    | some x =>
      cases hy : getColVals df "Uy" with
      | none => rfl
      | some y =>
        cases hz : getColVals df "Uz" with
        | none => rfl
        | some z =>
          rcases h with h | h | h
          · rw [hx] at h; cases h
          · rw [hy] at h; cases h
          · rw [hz] at h; cases h

/-- C10 (witness): a residuals table with Ux = 1, Uy = 2, Uz = 3 in one row
gets U = (1^2 + 2^2 + 3^2)/3 and loses the three component columns. -/

theorem c10_residuals_U_witness :
    DF.wf ⟨["time", "Ux", "Uy", "Uz"], [[0, 1, 2, 3]]⟩ ∧
      getColVals (residuals_U ⟨["time", "Ux", "Uy", "Uz"], [[0, 1, 2, 3]]⟩) "U" =
        some ((List.zipWith (fun a b => a + b)
          (List.zipWith (fun a b => a + b) ([(1 : Rat)].map (fun a => a ^ 2))
            ([(2 : Rat)].map (fun b => b ^ 2)))
          ([(3 : Rat)].map (fun c => c ^ 2))).map (fun v => v / 3)) ∧
      getColVals (residuals_U ⟨["time", "Ux", "Uy", "Uz"], [[0, 1, 2, 3]]⟩) "Ux" = none :=
  ⟨by decide,
    (((c10_residuals_U ⟨["time", "Ux", "Uy", "Uz"], [[0, 1, 2, 3]]⟩ (by decide)).1
      [1] [2] [3] (by rfl) (by rfl) (by rfl)).1),
    (((c10_residuals_U ⟨["time", "Ux", "Uy", "Uz"], [[0, 1, 2, 3]]⟩ (by decide)).1
      [1] [2] [3] (by rfl) (by rfl) (by rfl)).2.1)⟩

end Octopost
